import Mathlib

/-!
A shallow embedding of the scribe (shipwright) pipeline engine, covering the
step registry of src/shipwright.go, the docker image tagging and push code of
the docker package, and the drone manifest emission described by the design
documents.  Pure Go functions become Lean functions; the stateful parts
(the step counter, the process invocation counters, the validation log and the
docker side effects) are threaded explicitly.
-/

namespace Scribe

/-- pipeline.Argument: filesystem capability requests and named values that are
looked up in State before a step may run. -/
inductive Argument where
  | sourceFS
  | dockerSocketFS
  | namedValue (key : String)
  deriving DecidableEq, Repr

/-- Modelled from the spec: plumbing.DefaultImage is not under src/.  The spec
says every image tag combines a base name with the version, the empty name
denoting the primary/root image. -/
def DefaultImage (version : String) : String :=
  "grafana/scribe:" ++ version

/-- Modelled from the spec: plumbing.SubImage is not under src/.  It yields the
derived sub-image tag for a non-empty base name and the version. -/
def SubImage (name version : String) : String :=
  "grafana/scribe/" ++ name ++ ":" ++ version

/-- Modelled from the spec: plumbing.DefaultRegistry is not under src/; it
yields the default push registry. -/
def DefaultRegistry : String := "docker.io/grafana"

/-- pipeline.Step, restricted to the fields the embedded code reads or writes:
declared name, container image, the Serial identity assigned by the registry,
and the declared Arguments. -/
structure Step where
  Name : String := ""
  Image : String := ""
  Serial : Nat := 0
  Arguments : List Argument := []
  deriving DecidableEq, Repr

/-- Step.WithImage: return the step with its image replaced. -/
def Step.WithImage (s : Step) (image : String) : Step :=
  { s with Image := image }

/-- Step.WithName: return the step with its name replaced. -/
def Step.WithName (s : Step) (name : String) : Step :=
  { s with Name := name }

/-- The per-step body of Shipwright.initSteps (src/shipwright.go): substitute
the default image derived from the pipeline version when the step has none,
then assign the current value of the monotonic counter as the Serial. -/
def initStep (version : String) (n : Nat) (step : Step) : Step :=
  let step := if step.Image = "" then step.WithImage (DefaultImage version) else step
  { step with Serial := n }

/-- Shipwright.initSteps (src/shipwright.go): initialise every submitted step
in order, threading the counter s.n; returns the initialised steps and the
updated counter. -/
def initSteps (version : String) (n : Nat) : List Step → List Step × Nat
  | [] => ([], n)
  | s :: rest =>
    let r := initSteps version (n + 1) rest
    (initStep version n s :: r.1, r.2)

/-- A sequence of Run/Parallel calls viewed through identity assignment only:
initSteps folded over the calls, threading the counter between calls. -/
def initCalls (version : String) (n : Nat) : List (List Step) → List (List Step) × Nat
  | [] => ([], n)
  | c :: cs =>
    let r := initSteps version n c
    let rs := initCalls version r.2 cs
    (r.1 :: rs.1, rs.2)

/-- A validation error as shipwright.go observes it: the message and whether
errors.Is(err, plumbing.ErrorSkipValidation) holds for it. -/
structure VError where
  skippable : Bool
  msg : String
  deriving DecidableEq, Repr

/-- The backend-dependent Client.Validate hook; none means validation passed. -/
def Validator : Type := Step → Option VError

/-- formatError (src/shipwright.go): label a step by its declared name, or by
the generated unnamed-step label when the name is empty, together with its
identity. -/
def formatError (step : Step) (msg : String) : String :=
  let name := if step.Name = "" then "unnamed-step-" ++ toString step.Serial else step.Name
  "[name: " ++ name ++ ", id: " ++ toString step.Serial ++ "] " ++ msg

/-- The observable events of one Shipwright.Run/Parallel call: a call into
Client.Validate on a step, a warning log, a fatal log (plog.Fatalln, which
aborts the call), and the final hand-off of the whole batch to the backend
(Client.Run or Client.Parallel). -/
inductive RunEvent where
  | validateStep (s : Step)
  | warn (msg : String)
  | fatalLog (msg : String)
  | clientRun (steps : List Step)
  deriving DecidableEq, Repr

/-- Discriminator: the event is a Client.Validate call. -/
def RunEvent.isValidateCall : RunEvent → Bool
  | .validateStep _ => true
  | _ => false

/-- Discriminator: the event hands steps to the backend for execution. -/
def RunEvent.isExecCall : RunEvent → Bool
  | .clientRun _ => true
  | _ => false

/-- Shipwright.validateSteps (src/shipwright.go) as an event trace plus a
continuation flag: validate each step in order; a nil error continues, an
ErrorSkipValidation error logs a warning and continues, and any other error
logs fatally and aborts the call (flag false). -/
def validateSteps (validate : Validator) : List Step → List RunEvent × Bool
  | [] => ([], true)
  | s :: rest =>
    match validate s with
    | none =>
      let r := validateSteps validate rest
      (RunEvent.validateStep s :: r.1, r.2)
    | some e =>
      if e.skippable then
        let r := validateSteps validate rest
        (RunEvent.validateStep s :: RunEvent.warn (formatError s e.msg) :: r.1, r.2)
      else
        ([RunEvent.validateStep s, RunEvent.fatalLog (formatError s e.msg)], false)

/-- Shipwright.Run and Shipwright.Parallel (src/shipwright.go): initialise the
steps, validate them, and hand the batch to the backend unless validation
aborted.  In Go the variadic slice passed to validateSteps is the very slice
initSteps mutated in place, so validation observes the initialised steps; the
embedding makes that data flow explicit. -/
def ShipwrightRun (version : String) (validate : Validator) (n : Nat) (steps : List Step) :
    List RunEvent × Nat :=
  let ir := initSteps version n steps
  let vr := validateSteps validate ir.1
  if vr.2 then (vr.1 ++ [RunEvent.clientRun ir.1], ir.2) else (vr.1, ir.2)

/-- Whether Client.Validate lets a step through the call: no error at all, or a
skippable one. -/
def stepNonFatal (validate : Validator) (s : Step) : Bool :=
  match validate s with
  | none => true
  | some e => e.skippable

/-- strings.TrimSpace on the character list: drop leading and trailing
whitespace. -/
def trimChars (l : List Char) : List Char :=
  ((l.dropWhile Char.isWhitespace).reverse.dropWhile Char.isWhitespace).reverse

/-- strings.TrimSpace, written so the kernel can evaluate it. -/
def trimSpace (s : String) : String :=
  String.mk (trimChars s.data)

deriving instance DecidableEq for Except

/-- The outcomes of the two external git commands that version() runs (the
safe.directory config command and git describe): the combined output on
success, or a failure message. -/
structure GitEnv where
  configResult : Except String String
  describeResult : Except String String

/-- Per-process counters for the external command invocations version()
performs, used to observe how often each command actually runs. -/
structure ProcState where
  configRuns : Nat
  describeRuns : Nat
  deriving DecidableEq, Repr

/-- version (src/unnamed/part_001, docker package): run the git safe.directory
config command, then git describe, and return the trimmed describe output;
each call performs both external invocations anew. -/
def version (env : GitEnv) (st : ProcState) : Except String String × ProcState :=
  let st1 : ProcState := { st with configRuns := st.configRuns + 1 }
  match env.configResult with
  | Except.error e =>
    (Except.error ("running git config safe.directory failed: " ++ e), st1)
  | Except.ok _ =>
    let st2 : ProcState := { st1 with describeRuns := st1.describeRuns + 1 }
    match env.describeResult with
    | Except.error e =>
      (Except.error ("running git describe failed: " ++ e), st2)
    | Except.ok out => (Except.ok (trimSpace out), st2)

/-- The docker Image type (src/unnamed/part_001). -/
structure Image where
  Name : String := ""
  Dockerfile : String := ""
  Context : String := ""
  deriving DecidableEq, Repr

/-- Image.Tag (src/unnamed/part_001): resolve the version, then pick the
default (root) image tag when the image has no name and the sub-image tag for
its name otherwise; the error returned is exactly the version error. -/
def Image.Tag (i : Image) (env : GitEnv) (st : ProcState) : Except String String × ProcState :=
  match version env st with
  | (Except.error e, st1) => (Except.error e, st1)
  | (Except.ok v, st1) =>
    let name := if i.Name ≠ "" then SubImage i.Name v else DefaultImage v
    (Except.ok name, st1)

/-- The key of the registry auth token argument. -/
def ArgumentDockerAuthTokenKey : String := "docker-auth-token"

/-- Modelled from the spec: ArgumentDockerAuthToken is declared outside src/;
the spec calls it a required named-value Argument carrying the registry auth
token. -/
def ArgumentDockerAuthToken : Argument :=
  Argument.namedValue ArgumentDockerAuthTokenKey

/-- The pipeline State: a key/value store connecting steps. -/
def StateMap : Type := List (String × String)

/-- Modelled from the spec: State.GetString is declared outside src/; the spec
says named-value Arguments are looked up in State and the lookup fails when the
key is absent. -/
def getString (state : StateMap) (key : String) : Except String String :=
  match List.lookup key state with
  | some v => Except.ok v
  | none => Except.error ("no value found for key " ++ key)

/-- The docker side effects a step action can perform. -/
inductive DockerEffect where
  | buildImage (names : List String) (dockerfile contextDir versionArg : String)
  | pushImage (name registry authToken : String)
  deriving DecidableEq, Repr

/-- The structural step Image.PushStep returns (src/unnamed/part_001):
pipeline.NewStep(action).WithArguments(ArgumentSourceFS, ArgumentDockerSocketFS,
ArgumentDockerAuthToken).WithImage(SubImage("docker", sw.Version)). -/
def Image.PushStep (i : Image) (swVersion : String) : Step :=
  { Name := "", Serial := 0,
    Image := SubImage "docker" swVersion,
    Arguments := [Argument.sourceFS, Argument.dockerSocketFS, ArgumentDockerAuthToken] }

/-- PushSteps (src/unnamed/part_001): one named push step per image. -/
def PushSteps (swVersion : String) (images : List Image) : List Step :=
  images.map fun img => (Image.PushStep img swVersion).WithName ("push " ++ img.Name)

/-- The action closed over by Image.PushStep (src/unnamed/part_001): resolve
the tag, then look the auth token up in State, and only then perform the push;
returns the action result, the docker effects performed, and the process
state. -/
def pushStepAction (i : Image) (env : GitEnv) (state : StateMap) (st : ProcState) :
    Except String Unit × List DockerEffect × ProcState :=
  match Image.Tag i env st with
  | (Except.error e, st1) => (Except.error e, [], st1)
  | (Except.ok tag, st1) =>
    match getString state ArgumentDockerAuthTokenKey with
    | Except.error e => (Except.error e, [], st1)
    | Except.ok auth =>
      (Except.ok (), [DockerEffect.pushImage tag DefaultRegistry auth], st1)

/-- A drone manifest step record: name, image, the re-invocation command line,
and the explicit dependency list. -/
structure DroneStep where
  name : String
  image : String
  commands : List String
  dependsOn : List String
  deriving DecidableEq, Repr

/-- Modelled from the spec: the drone client implementation is not under src/.
Per step the backend records the step name, its image, a command line
re-invoking the binary with the step identity and the pipeline path, and a
dependency list equal to the names of the records of the immediately preceding
stage. -/
def droneStageRecords (path : String) (prevNames : List String) (stage : List Step) :
    List DroneStep :=
  stage.map fun s =>
    { name := s.Name, image := s.Image,
      commands := ["shipwright -step=" ++ toString s.Serial ++ " " ++ path],
      dependsOn := prevNames }

/-- Modelled from the spec: the manifest backend accumulates one record group
per stage, in declaration order, each group depending on the names of the
previous group. -/
def droneStages (path : String) (prevNames : List String) : List (List Step) → List (List DroneStep)
  | [] => []
  | st :: rest =>
    let recs := droneStageRecords path prevNames st
    recs :: droneStages path (recs.map DroneStep.name) rest

/-- The termination signals relevant to New (src/shipwright.go). -/
inductive Signal where
  | SIGHUP
  | SIGINT
  | SIGTERM
  | SIGQUIT
  | other (n : Nat)
  deriving DecidableEq, Repr

/-- The signals New subscribes to with signal.Notify (src/shipwright.go). -/
def notifiedSignals : List Signal :=
  [Signal.SIGHUP, Signal.SIGINT, Signal.SIGTERM, Signal.SIGQUIT]

/-- Effects the signal-handling goroutine could perform: write a string to
standard output, or cancel a spawned child process. -/
inductive HandlerEffect where
  | printOut (s : String)
  | cancelProc (pid : Nat)
  deriving DecidableEq, Repr

/-- The body of the goroutine New spawns (src/shipwright.go): upon receiving
one of the notified signals it prints the ANSI show-cursor escape sequence and
nothing else; signals it did not subscribe to never reach the channel. -/
def signalHandler (sig : Signal) : List HandlerEffect :=
  if sig ∈ notifiedSignals then [HandlerEffect.printOut "\x1b[?25h"] else []

/-- A sample backend validator used to exercise the theorems on concrete
inputs: steps named bad fail fatally, steps named warn fail skippably. -/
def exValidator : Validator := fun s =>
  if s.Name = "bad" then some { skippable := false, msg := "broken step" }
  else if s.Name = "warn" then some { skippable := true, msg := "step discouraged" }
  else none

/-- A sample git environment where both external commands succeed. -/
def exGitEnv : GitEnv :=
  { configResult := Except.ok "", describeResult := Except.ok "v1.2.3" }

theorem initStep_serial (version : String) (n : Nat) (s : Step) :
    (initStep version n s).Serial = n := by
  unfold initStep
  split <;> rfl

theorem initStep_image (version : String) (n : Nat) (s : Step) :
    (initStep version n s).Image = if s.Image = "" then DefaultImage version else s.Image := by
  unfold initStep
  split <;> rfl

theorem initSteps_length (version : String) (l : List Step) (n : Nat) :
    (initSteps version n l).1.length = l.length := by
  induction l generalizing n with
  | nil => rfl
  | cons s rest ih => simp [initSteps, ih]

theorem initSteps_counter (version : String) (l : List Step) (n : Nat) :
    (initSteps version n l).2 = n + l.length := by
  induction l generalizing n with
  | nil => simp [initSteps]
  | cons s rest ih => simp [initSteps, ih]; omega

theorem initSteps_getElem (version : String) (l : List Step) (n i : Nat)
    (h : i < (initSteps version n l).1.length) :
    ∃ hl : i < l.length, (initSteps version n l).1[i] = initStep version (n + i) l[i] := by
  induction l generalizing n i with
  | nil => simp [initSteps] at h
  | cons s rest ih =>
    cases i with
    | zero => exact ⟨by simp, by simp [initSteps]⟩
    | succ k =>
      have hk : k < (initSteps version (n + 1) rest).1.length := by
        have := initSteps_length version rest (n + 1)
        have hlen := initSteps_length version (s :: rest) n
        simp at hlen
        omega
      obtain ⟨hl, heq⟩ := ih (n + 1) k hk
      refine ⟨by simp; omega, ?_⟩
      simp only [initSteps, List.getElem_cons_succ]
      rw [heq]
      congr 1
      omega

theorem initSteps_serial (version : String) (l : List Step) (n i : Nat)
    (h : i < (initSteps version n l).1.length) :
    ((initSteps version n l).1[i]).Serial = n + i := by
  obtain ⟨hl, heq⟩ := initSteps_getElem version l n i h
  rw [heq, initStep_serial]

theorem DefaultImage_ne_empty (version : String) : DefaultImage version ≠ "" := by
  intro h
  have hlen := congrArg String.length h
  have h15 : ("grafana/scribe:").length = 15 := by decide
  have h0 : ("" : String).length = 0 := by decide
  rw [DefaultImage, String.length_append, h15, h0] at hlen
  omega

theorem initSteps_image_ne (version : String) (l : List Step) (n : Nat) :
    ∀ s ∈ (initSteps version n l).1, s.Image ≠ "" := by
  induction l generalizing n with
  | nil => simp [initSteps]
  | cons s rest ih =>
    intro t ht
    simp only [initSteps, List.mem_cons] at ht
    rcases ht with h | h
    · subst h
      rw [initStep_image]
      split
      · exact DefaultImage_ne_empty version
      · assumption
    · exact ih (n + 1) t h

theorem initCalls_flatten_serial (calls : List (List Step)) (version : String) (n j : Nat)
    (h : j < ((initCalls version n calls).1.flatten).length) :
    (((initCalls version n calls).1.flatten)[j]).Serial = n + j := by
  induction calls generalizing n j with
  | nil => simp [initCalls] at h
  | cons c cs ih =>
    have hsplit : (initCalls version n (c :: cs)).1.flatten =
        (initSteps version n c).1 ++ (initCalls version ((initSteps version n c).2) cs).1.flatten := by
      simp [initCalls]
    have hc := initSteps_length version c n
    by_cases hj : j < (initSteps version n c).1.length
    · have : ((initCalls version n (c :: cs)).1.flatten)[j] = ((initSteps version n c).1)[j] := by
        simp only [hsplit]
        exact List.getElem_append_left hj
      rw [this]
      exact initSteps_serial version c n j hj
    · have hge : (initSteps version n c).1.length ≤ j := Nat.le_of_not_lt hj
      have hlt : j - (initSteps version n c).1.length <
          ((initCalls version ((initSteps version n c).2) cs).1.flatten).length := by
        have hlen := congrArg List.length hsplit
        simp only [List.length_append] at hlen
        omega
      have : ((initCalls version n (c :: cs)).1.flatten)[j] =
          ((initCalls version ((initSteps version n c).2) cs).1.flatten)[j - (initSteps version n c).1.length] := by
        simp only [hsplit]
        exact List.getElem_append_right hge
      rw [this]
      rw [ih ((initSteps version n c).2) (j - (initSteps version n c).1.length) hlt]
      rw [initSteps_counter]
      omega

theorem validateSteps_no_exec (validate : Validator) (l : List Step) :
    ∀ e ∈ (validateSteps validate l).1, e.isExecCall = false := by
  induction l with
  | nil => simp [validateSteps]
  | cons s rest ih =>
    intro e he
    cases hv : validate s with
    | none =>
      simp only [validateSteps, hv, List.mem_cons] at he
      rcases he with h | h
      · subst h; rfl
      · exact ih e h
    | some err =>
      by_cases hs : err.skippable = true
      · simp only [validateSteps, hv, hs, if_true, List.mem_cons] at he
        rcases he with h | h
        · subst h; rfl
        rcases h with h | h
        · subst h; rfl
        · exact ih e h
      · simp [validateSteps, hv, hs] at he
        rcases he with h | h
        · subst h; rfl
        · subst h; rfl

theorem validateSteps_validate_mem (validate : Validator) (l : List Step) (s : Step) :
    RunEvent.validateStep s ∈ (validateSteps validate l).1 → s ∈ l := by
  induction l with
  | nil => simp [validateSteps]
  | cons t rest ih =>
    intro hmem
    cases hv : validate t with
    | none =>
      simp only [validateSteps, hv, List.mem_cons] at hmem
      rcases hmem with h | h
      · rw [RunEvent.validateStep.injEq] at h
        rw [h]
        exact List.mem_cons_self t rest
      · exact List.mem_cons_of_mem t (ih h)
    | some err =>
      by_cases hs : err.skippable = true
      · simp only [validateSteps, hv, hs, if_true, List.mem_cons] at hmem
        rcases hmem with h | h
        · rw [RunEvent.validateStep.injEq] at h
          rw [h]
          exact List.mem_cons_self t rest
        rcases h with h | h
        · exact absurd h (by simp)
        · exact List.mem_cons_of_mem t (ih h)
      · simp [validateSteps, hv, hs] at hmem
        rw [hmem]
        exact List.mem_cons_self t rest

theorem validateSteps_count (validate : Validator) (l : List Step) :
    (validateSteps validate l).2 = true →
    (validateSteps validate l).1.countP RunEvent.isValidateCall = l.length := by
  induction l with
  | nil => intro _; rfl
  | cons s rest ih =>
    intro hok
    cases hv : validate s with
    | none =>
      simp only [validateSteps, hv] at hok ⊢
      simp only [List.countP_cons]
      rw [ih hok]
      simp [RunEvent.isValidateCall, List.length_cons]
    | some err =>
      by_cases hs : err.skippable = true
      · simp only [validateSteps, hv, hs, if_true] at hok ⊢
        simp only [List.countP_cons]
        rw [ih hok]
        simp [RunEvent.isValidateCall, RunEvent.warn.injEq, List.length_cons]
      · simp [validateSteps, hv, hs] at hok

theorem validateSteps_ok_of_all_nonfatal (validate : Validator) (l : List Step)
    (hall : ∀ s ∈ l, stepNonFatal validate s = true) :
    (validateSteps validate l).2 = true := by
  induction l with
  | nil => rfl
  | cons s rest ih =>
    have hhead := hall s (List.mem_cons_self s rest)
    have htail : ∀ t ∈ rest, stepNonFatal validate t = true :=
      fun t ht => hall t (List.mem_cons_of_mem s ht)
    cases hv : validate s with
    | none =>
      simp only [validateSteps, hv]
      exact ih htail
    | some err =>
      simp only [stepNonFatal, hv] at hhead
      simp only [validateSteps, hv, hhead, if_true]
      exact ih htail

theorem validateSteps_fatal_of_exists (validate : Validator) (l : List Step)
    (hex : ∃ s ∈ l, stepNonFatal validate s = false) :
    (validateSteps validate l).2 = false := by
  induction l with
  | nil => simp at hex
  | cons s rest ih =>
    obtain ⟨t, ht, hfatal⟩ := hex
    cases hv : validate s with
    | none =>
      simp only [validateSteps, hv]
      rcases List.mem_cons.mp ht with h | h
      · subst h
        simp [stepNonFatal, hv] at hfatal
      · exact ih ⟨t, h, hfatal⟩
    | some err =>
      by_cases hs : err.skippable = true
      · simp only [validateSteps, hv, hs, if_true]
        rcases List.mem_cons.mp ht with h | h
        · subst h
          simp only [stepNonFatal, hv] at hfatal
          rw [hfatal] at hs
          simp at hs
        · exact ih ⟨t, h, hfatal⟩
      · simp [validateSteps, hv, hs]

theorem validateSteps_warn_mem (validate : Validator) (l : List Step) (s : Step) (e : VError)
    (hall : ∀ t ∈ l, stepNonFatal validate t = true)
    (hs : s ∈ l) (he : validate s = some e) :
    RunEvent.warn (formatError s e.msg) ∈ (validateSteps validate l).1 := by
  induction l with
  | nil => simp at hs
  | cons t rest ih =>
    have htail : ∀ u ∈ rest, stepNonFatal validate u = true :=
      fun u hu => hall u (List.mem_cons_of_mem t hu)
    rcases List.mem_cons.mp hs with h | h
    · subst h
      have hskip : e.skippable = true := by
        have hh := hall s (List.mem_cons_self s rest)
        simp only [stepNonFatal, he] at hh
        exact hh
      simp [validateSteps, he, hskip]
    · cases hv : validate t with
      | none =>
        simp only [validateSteps, hv]
        exact List.mem_cons_of_mem _ (ih htail h)
      | some err =>
        have hskip : err.skippable = true := by
          have hh := hall t (List.mem_cons_self t rest)
          simp only [stepNonFatal, hv] at hh
          exact hh
        simp only [validateSteps, hv, hskip, if_true]
        exact List.mem_cons_of_mem _ (List.mem_cons_of_mem _ (ih htail h))

theorem validateSteps_append_fatal (validate : Validator) (pre post : List Step) (b : Step)
    (e : VError) (hpre : ∀ t ∈ pre, stepNonFatal validate t = true)
    (hb : validate b = some e) (hskip : e.skippable = false) :
    validateSteps validate (pre ++ b :: post) =
      ((validateSteps validate pre).1 ++
        [RunEvent.validateStep b, RunEvent.fatalLog (formatError b e.msg)], false) := by
  induction pre with
  | nil =>
    simp only [List.nil_append, validateSteps, hb, hskip, Bool.false_eq_true, if_false]
  | cons t rest ih =>
    have hhead := hpre t (List.mem_cons_self t rest)
    have htail : ∀ u ∈ rest, stepNonFatal validate u = true :=
      fun u hu => hpre u (List.mem_cons_of_mem t hu)
    have ihr := ih htail
    cases hv : validate t with
    | none =>
      simp [List.cons_append, validateSteps, hv, ihr]
    | some err =>
      simp only [stepNonFatal, hv] at hhead
      simp [List.cons_append, validateSteps, hv, hhead, ihr]

theorem shipwrightRun_clientRun_eq (version : String) (validate : Validator) (n : Nat)
    (steps : List Step) (ss : List Step)
    (hmem : RunEvent.clientRun ss ∈ (ShipwrightRun version validate n steps).1) :
    ss = (initSteps version n steps).1 := by
  simp only [ShipwrightRun] at hmem
  by_cases hok : (validateSteps validate (initSteps version n steps).1).2 = true
  · rw [if_pos hok] at hmem
    rcases List.mem_append.mp hmem with h | h
    · have := validateSteps_no_exec validate (initSteps version n steps).1 _ h
      simp [RunEvent.isExecCall] at this
    · rw [List.mem_singleton, RunEvent.clientRun.injEq] at h
      exact h
  · rw [if_neg hok] at hmem
    have := validateSteps_no_exec validate (initSteps version n steps).1 _ hmem
    simp [RunEvent.isExecCall] at this

theorem shipwrightRun_validate_mem (version : String) (validate : Validator) (n : Nat)
    (steps : List Step) (s : Step)
    (hmem : RunEvent.validateStep s ∈ (ShipwrightRun version validate n steps).1) :
    s ∈ (initSteps version n steps).1 := by
  simp only [ShipwrightRun] at hmem
  by_cases hok : (validateSteps validate (initSteps version n steps).1).2 = true
  · rw [if_pos hok] at hmem
    rcases List.mem_append.mp hmem with h | h
    · exact validateSteps_validate_mem validate _ s h
    · simp at h
  · rw [if_neg hok] at hmem
    exact validateSteps_validate_mem validate _ s hmem

/-- C1: step identity assignment is pure and deterministic.  Over any fixed
sequence of Run/Parallel calls the j-th step declared overall receives Serial
j (serials are consecutive, in declaration order); the counter left behind by
a Run call does not depend on the active backend validator, and whatever
backend is active receives exactly the initSteps output, so re-running the
same definition assigns the same Serial to the same declared step. -/
theorem step_identity_deterministic (ver : String) (calls : List (List Step)) (j : Nat)
    (h : j < ((initCalls ver 0 calls).1.flatten).length) :
    (((initCalls ver 0 calls).1.flatten).get ⟨j, h⟩).Serial = j ∧
    (∀ (validateA validateB : Validator) (n : Nat) (steps : List Step),
      (ShipwrightRun ver validateA n steps).2 = (ShipwrightRun ver validateB n steps).2) ∧
    (∀ (validate : Validator) (n : Nat) (steps : List Step) (ss : List Step),
      RunEvent.clientRun ss ∈ (ShipwrightRun ver validate n steps).1 →
      ss = (initSteps ver n steps).1) := by
  refine ⟨?_, ?_, ?_⟩
  · rw [List.get_eq_getElem]
    have hs := initCalls_flatten_serial calls ver 0 j h
    rw [hs]
    omega
  · intro vA vB n steps
    simp only [ShipwrightRun]
    split <;> split <;> rfl
  · intro validate n steps ss hmem
    exact shipwrightRun_clientRun_eq ver validate n steps ss hmem

/-- Witness for the C1 theorem: in the two-call sequence run([a, b]); run([c]),
the third declared step (index 2) has Serial 2. -/
theorem step_identity_deterministic_witness :
    (((initCalls "v1" 0 [[{ Name := "a" }, { Name := "b" }], [{ Name := "c" }]]).1.flatten).get
        ⟨2, by decide⟩).Serial = 2 :=
  (step_identity_deterministic "v1" [[{ Name := "a" }, { Name := "b" }], [{ Name := "c" }]] 2
    (by decide)).1

/-- C2: validation error disposition.  When every step of the call validates
cleanly or with a skippable error, the loop completes, each skippable error is
logged as a warning, and the whole initialised batch is still handed to the
backend; any step with a non-skippable error makes the call abort, and the
first such step is reported fatally under its declared name, or under the
generated unnamed-step label when the name is empty, together with its
identity. -/
theorem validation_error_disposition (validate : Validator) :
    (∀ (steps : List Step) (s : Step) (e : VError),
      (∀ t ∈ steps, stepNonFatal validate t = true) →
      (validateSteps validate steps).2 = true ∧
      (s ∈ steps → validate s = some e →
        RunEvent.warn (formatError s e.msg) ∈ (validateSteps validate steps).1)) ∧
    (∀ (version : String) (n : Nat) (steps : List Step),
      (∀ t ∈ (initSteps version n steps).1, stepNonFatal validate t = true) →
      RunEvent.clientRun (initSteps version n steps).1 ∈
        (ShipwrightRun version validate n steps).1) ∧
    (∀ (steps : List Step), (∃ s ∈ steps, stepNonFatal validate s = false) →
      (validateSteps validate steps).2 = false) ∧
    (∀ (pre post : List Step) (b : Step) (e : VError),
      (∀ t ∈ pre, stepNonFatal validate t = true) →
      validate b = some e → e.skippable = false →
      validateSteps validate (pre ++ b :: post) =
        ((validateSteps validate pre).1 ++
          [RunEvent.validateStep b,
           RunEvent.fatalLog ("[name: " ++
             (if b.Name = "" then "unnamed-step-" ++ toString b.Serial else b.Name) ++
             ", id: " ++ toString b.Serial ++ "] " ++ e.msg)], false)) := by
  refine ⟨?_, ?_, ?_, ?_⟩
  · intro steps s e hall
    refine ⟨validateSteps_ok_of_all_nonfatal validate steps hall, ?_⟩
    intro hs he
    exact validateSteps_warn_mem validate steps s e hall hs he
  · intro version n steps hall
    have hok := validateSteps_ok_of_all_nonfatal validate _ hall
    simp only [ShipwrightRun]
    rw [if_pos hok]
    exact List.mem_append_right _ (List.mem_singleton_self _)
  · intro steps hex
    exact validateSteps_fatal_of_exists validate steps hex
  · intro pre post b e hpre hb hskip
    have heq := validateSteps_append_fatal validate pre post b e hpre hb hskip
    rw [heq]
    rfl

/-- Witness for the C2 theorem: a call containing a skippably-failing step and
then a fatally-failing unnamed-style step aborts with the fatal report for the
latter. -/
theorem validation_error_disposition_witness :
    validateSteps exValidator
        ([{ Name := "warn", Serial := 3 }] ++ ({ Name := "bad", Serial := 7 } : Step) :: []) =
      ((validateSteps exValidator [{ Name := "warn", Serial := 3 }]).1 ++
        [RunEvent.validateStep { Name := "bad", Serial := 7 },
         RunEvent.fatalLog ("[name: " ++
           (if ({ Name := "bad", Serial := 7 } : Step).Name = "" then
             "unnamed-step-" ++ toString ({ Name := "bad", Serial := 7 } : Step).Serial
           else ({ Name := "bad", Serial := 7 } : Step).Name) ++
           ", id: " ++ toString ({ Name := "bad", Serial := 7 } : Step).Serial ++ "] " ++
           "broken step")], false) :=
  (validation_error_disposition exValidator).2.2.2
    [{ Name := "warn", Serial := 3 }] [] { Name := "bad", Serial := 7 }
    { skippable := false, msg := "broken step" } (by decide) (by decide) rfl

/-- C3: in every Run/Parallel call, every Client.Validate event strictly
precedes the hand-off of the batch to the backend; moreover when a hand-off
event exists at all, the number of validation events equals the number of
steps in the call, so all steps were validated before any executed. -/
theorem all_validated_before_execution (version : String) (validate : Validator) (n : Nat)
    (steps : List Step) (i j : Nat)
    (hi : i < ((ShipwrightRun version validate n steps).1).length)
    (hj : j < ((ShipwrightRun version validate n steps).1).length)
    (hvi : (((ShipwrightRun version validate n steps).1).get ⟨i, hi⟩).isValidateCall = true)
    (hej : (((ShipwrightRun version validate n steps).1).get ⟨j, hj⟩).isExecCall = true) :
    i < j ∧
    ((ShipwrightRun version validate n steps).1).countP RunEvent.isValidateCall
      = steps.length := by
  by_cases hok : (validateSteps validate (initSteps version n steps).1).2 = true
  · have hev : (ShipwrightRun version validate n steps).1 =
        (validateSteps validate (initSteps version n steps).1).1 ++
          [RunEvent.clientRun (initSteps version n steps).1] := by
      simp only [ShipwrightRun]
      rw [if_pos hok]
    rw [List.get_eq_getElem] at hvi hej
    have hi2 : i < ((validateSteps validate (initSteps version n steps).1).1 ++
        [RunEvent.clientRun (initSteps version n steps).1]).length := by
      rw [← hev]; exact hi
    have hj2 : j < ((validateSteps validate (initSteps version n steps).1).1 ++
        [RunEvent.clientRun (initSteps version n steps).1]).length := by
      rw [← hev]; exact hj
    have hvi2 : (((validateSteps validate (initSteps version n steps).1).1 ++
        [RunEvent.clientRun (initSteps version n steps).1])[i]).isValidateCall = true := by
      rw [← hvi]
      congr 1
      exact (List.getElem_of_eq hev hi).symm ▸ rfl
    have hej2 : (((validateSteps validate (initSteps version n steps).1).1 ++
        [RunEvent.clientRun (initSteps version n steps).1])[j]).isExecCall = true := by
      rw [← hej]
      congr 1
      exact (List.getElem_of_eq hev hj).symm ▸ rfl
    have hlen : ((validateSteps validate (initSteps version n steps).1).1 ++
        [RunEvent.clientRun (initSteps version n steps).1]).length =
        (validateSteps validate (initSteps version n steps).1).1.length + 1 := by
      simp
    constructor
    · by_cases hjlt : j < (validateSteps validate (initSteps version n steps).1).1.length
      · exfalso
        rw [List.getElem_append_left hjlt] at hej2
        have := validateSteps_no_exec validate (initSteps version n steps).1 _
          (List.getElem_mem hjlt)
        rw [this] at hej2
        exact absurd hej2 (by simp)
      · by_cases hilt : i < (validateSteps validate (initSteps version n steps).1).1.length
        · omega
        · exfalso
          rw [List.getElem_append_right (Nat.le_of_not_lt hilt)] at hvi2
          have h0 : i - (validateSteps validate (initSteps version n steps).1).1.length = 0 := by
            omega
          simp only [h0, List.getElem_cons_zero] at hvi2
          exact absurd hvi2 (by simp [RunEvent.isValidateCall])
    · rw [hev, List.countP_append, validateSteps_count validate _ hok, initSteps_length]
      simp [List.countP_cons, RunEvent.isValidateCall]
  · exfalso
    have hev : (ShipwrightRun version validate n steps).1 =
        (validateSteps validate (initSteps version n steps).1).1 := by
      simp only [ShipwrightRun]
      rw [if_neg hok]
    rw [List.get_eq_getElem] at hej
    have hmem : ((ShipwrightRun version validate n steps).1)[j] ∈
        (validateSteps validate (initSteps version n steps).1).1 := by
      rw [List.getElem_of_eq hev hj]
      exact List.getElem_mem _
    have := validateSteps_no_exec validate (initSteps version n steps).1 _ hmem
    rw [this] at hej
    exact absurd hej (by simp)

/-- Witness for the C3 theorem: in a one-step call, the validation event at
index 0 precedes the backend hand-off at index 1, and exactly one validation
event was recorded. -/
theorem all_validated_before_execution_witness :
    0 < 1 ∧
    ((ShipwrightRun "v1" exValidator 0 [{ Name := "ok" }]).1).countP RunEvent.isValidateCall
      = 1 :=
  all_validated_before_execution "v1" exValidator 0 [{ Name := "ok" }] 0 1
    (by decide) (by decide) (by decide) (by decide)

/-- C4: a step submitted with an empty Image receives the default image derived
from the pipeline version inside initSteps, at registration time: the
initialised list already carries the default at the same position, and both
validation and the backend hand-off only ever observe initialised steps, so
the substitution is never deferred to execution time. -/
theorem default_image_substituted_at_registration (version : String) (validate : Validator)
    (n : Nat) (steps : List Step) (i : Nat) (h : i < steps.length)
    (himg : (steps.get ⟨i, h⟩).Image = "") :
    (∃ hh : i < (initSteps version n steps).1.length,
      (((initSteps version n steps).1).get ⟨i, hh⟩).Image = DefaultImage version) ∧
    (∀ s, RunEvent.validateStep s ∈ (ShipwrightRun version validate n steps).1 →
      s ∈ (initSteps version n steps).1) ∧
    (∀ ss, RunEvent.clientRun ss ∈ (ShipwrightRun version validate n steps).1 →
      ss = (initSteps version n steps).1) := by
  refine ⟨?_, ?_, ?_⟩
  · have hh : i < (initSteps version n steps).1.length := by
      rw [initSteps_length]; exact h
    refine ⟨hh, ?_⟩
    rw [List.get_eq_getElem]
    obtain ⟨hl, heq⟩ := initSteps_getElem version steps n i hh
    rw [heq, initStep_image]
    rw [List.get_eq_getElem] at himg
    rw [himg]
    rfl
  · intro s hmem
    exact shipwrightRun_validate_mem version validate n steps s hmem
  · intro ss hmem
    exact shipwrightRun_clientRun_eq version validate n steps ss hmem

/-- Witness for the C4 theorem: a step declared without an image is handed to
validation and the backend already carrying the default image for version v1. -/
theorem default_image_substituted_at_registration_witness :
    ∃ hh : 0 < (initSteps "v1" 0 [{ Name := "a" }]).1.length,
      (((initSteps "v1" 0 [{ Name := "a" }]).1).get ⟨0, hh⟩).Image = DefaultImage "v1" :=
  (default_image_substituted_at_registration "v1" exValidator 0 [{ Name := "a" }] 0
    (by decide) (by decide)).1

/-- C10: Client.Validate is never invoked on a step whose Image field is empty:
in Go the slice validateSteps reads is the one initSteps just initialised in
place, so every validated step carries either its declared image or the
substituted non-empty default, and any backend validation branch rejecting a
missing image is unreachable through Run and Parallel. -/
theorem validate_never_sees_empty_image (version : String) (validate : Validator) (n : Nat)
    (steps : List Step) (s : Step)
    (hmem : RunEvent.validateStep s ∈ (ShipwrightRun version validate n steps).1) :
    s.Image ≠ "" :=
  initSteps_image_ne version steps n s (shipwrightRun_validate_mem version validate n steps s hmem)

/-- Witness for the C10 theorem: the step validated in a concrete one-step call
carries the substituted default image, which is non-empty. -/
theorem validate_never_sees_empty_image_witness :
    ({ Name := "a", Image := DefaultImage "v1", Serial := 0 } : Step).Image ≠ "" :=
  validate_never_sees_empty_image "v1" exValidator 0 [{ Name := "a" }]
    { Name := "a", Image := DefaultImage "v1", Serial := 0 } (by decide)

theorem droneStageRecords_dependsOn (path : String) (prevNames : List String)
    (stage : List Step) :
    ∀ r ∈ droneStageRecords path prevNames stage, r.dependsOn = prevNames := by
  intro r hr
  simp only [droneStageRecords, List.mem_map] at hr
  obtain ⟨s, _, hs⟩ := hr
  rw [← hs]

theorem droneStages_names (path : String) (stages : List (List Step)) :
    ∀ prevNames : List String,
      (droneStages path prevNames stages).map (List.map DroneStep.name)
        = stages.map (List.map Step.Name) := by
  induction stages with
  | nil => intro prevNames; rfl
  | cons st rest ih =>
    intro prevNames
    simp only [droneStages, List.map_cons, List.cons.injEq]
    constructor
    · simp [droneStageRecords, List.map_map]
    · exact ih _

theorem droneStages_stage_lengths (path : String) (stages : List (List Step)) :
    ∀ prevNames : List String,
      (droneStages path prevNames stages).map List.length = stages.map List.length := by
  induction stages with
  | nil => intro prevNames; rfl
  | cons st rest ih =>
    intro prevNames
    simp only [droneStages, List.map_cons, List.cons.injEq]
    constructor
    · simp [droneStageRecords]
    · exact ih _

theorem droneStages_dependsOn_chain (path : String) (stages : List (List Step)) :
    ∀ (prevNames : List String) (k : Nat)
      (hk : k + 1 < (droneStages path prevNames stages).length) (r : DroneStep),
      r ∈ (droneStages path prevNames stages)[k + 1] →
      ∃ hk0 : k < (droneStages path prevNames stages).length,
        r.dependsOn = ((droneStages path prevNames stages)[k]).map DroneStep.name := by
  induction stages with
  | nil =>
    intro prevNames k hk r hr
    simp [droneStages] at hk
  | cons st rest ih =>
    intro prevNames k hk r hr
    cases k with
    | zero =>
      cases rest with
      | nil => simp [droneStages] at hk
      | cons st2 rest2 =>
        refine ⟨by simp [droneStages], ?_⟩
        simp only [droneStages, List.getElem_cons_succ, List.getElem_cons_zero] at hr ⊢
        exact droneStageRecords_dependsOn path _ st2 r hr
    | succ k2 =>
      have hk2 : k2 + 1 <
          (droneStages path ((droneStageRecords path prevNames st).map DroneStep.name) rest).length := by
        simp only [droneStages, List.length_cons] at hk
        omega
      have hr2 : r ∈ (droneStages path
          ((droneStageRecords path prevNames st).map DroneStep.name) rest)[k2 + 1] := by
        simp only [droneStages, List.getElem_cons_succ] at hr
        exact hr
      obtain ⟨h0, hdep⟩ := ih ((droneStageRecords path prevNames st).map DroneStep.name) k2 hk2 r hr2
      refine ⟨by simp only [droneStages, List.length_cons]; omega, ?_⟩
      simp only [droneStages, List.getElem_cons_succ]
      exact hdep

/-- C5: drone manifest fidelity.  Stage for stage, the emitted record names
match the declared step names in declaration order; the total number of records
is the sum of the stage sizes; every record in stage K+1 depends on exactly
the names of the records of stage K and nothing else; and every record of the
first emitted stage depends on exactly the names the emission started from
(the implicit initial stage). -/
theorem drone_manifest_fidelity (path : String) (prevNames : List String)
    (stages : List (List Step)) :
    ((droneStages path prevNames stages).map (List.map DroneStep.name)
      = stages.map (List.map Step.Name)) ∧
    ((droneStages path prevNames stages).flatten.length = (stages.map List.length).sum) ∧
    (∀ (k : Nat) (hk : k + 1 < (droneStages path prevNames stages).length),
      ∀ r ∈ (droneStages path prevNames stages).get ⟨k + 1, hk⟩,
        r.dependsOn =
          ((droneStages path prevNames stages).get ⟨k, Nat.lt_of_succ_lt hk⟩).map
            DroneStep.name) ∧
    (∀ h0 : 0 < (droneStages path prevNames stages).length,
      ∀ r ∈ (droneStages path prevNames stages).get ⟨0, h0⟩, r.dependsOn = prevNames) := by
  refine ⟨droneStages_names path stages prevNames, ?_, ?_, ?_⟩
  · rw [List.length_flatten, droneStages_stage_lengths path stages prevNames]
  · intro k hk r hr
    rw [List.get_eq_getElem] at hr ⊢
    obtain ⟨h0, hdep⟩ := droneStages_dependsOn_chain path stages prevNames k hk r hr
    exact hdep
  · intro h0 r hr
    cases stages with
    | nil => simp [droneStages] at h0
    | cons st rest =>
      rw [List.get_eq_getElem] at hr
      simp only [droneStages, List.getElem_cons_zero] at hr
      exact droneStageRecords_dependsOn path prevNames st r hr

/-- Witness for the C5 theorem: in a two-stage pipeline after the implicit
clone stage, the build record depends on exactly the two install records. -/
theorem drone_manifest_fidelity_witness :
    ({ name := "build", image := "", commands := ["shipwright -step=3 demo"],
       dependsOn := ["install-frontend", "install-backend"] } : DroneStep).dependsOn =
      ["install-frontend", "install-backend"] := by
  have h := (drone_manifest_fidelity "demo" ["clone"]
      [[{ Name := "install-frontend", Serial := 1 }, { Name := "install-backend", Serial := 2 }],
       [{ Name := "build", Serial := 3 }]]).2.2.1 0 (by decide)
      { name := "build", image := "", commands := ["shipwright -step=3 demo"],
        dependsOn := ["install-frontend", "install-backend"] } (by decide)
  rw [h]
  decide

/-- C6 counterexample: the claim that the external describe command is invoked
a single time per process and memoized is false on the code: two successive
version queries in one process perform two describe invocations. -/
theorem version_memoization_counterexample :
    (version exGitEnv (version exGitEnv { configRuns := 0, describeRuns := 0 }).2).2.describeRuns
        = 2 ∧
    ¬ ((version exGitEnv
        (version exGitEnv { configRuns := 0, describeRuns := 0 }).2).2.describeRuns ≤ 1) := by
  decide

/-- C6 amended: version() performs no memoization: every call re-invokes the
git describe command (whenever the config command succeeds the describe
counter grows by exactly one), and the value returned is recomputed from the
environment alone, independent of any prior process state. -/
theorem version_recomputed_every_call (env : GitEnv) (st stB : ProcState)
    (hc : ∃ o, env.configResult = Except.ok o) :
    (version env st).2.describeRuns = st.describeRuns + 1 ∧
    (version env st).1 = (version env stB).1 := by
  obtain ⟨o, ho⟩ := hc
  cases hd : env.describeResult with
  | ok out => refine ⟨?_, ?_⟩ <;> simp [version, ho, hd]
  | error e => refine ⟨?_, ?_⟩ <;> simp [version, ho, hd]

/-- Witness for the C6 amended theorem at the sample environment: a first call
performs one describe invocation, and a fresh-state call returns the same
value as a dirty-state call. -/
theorem version_recomputed_every_call_witness :
    (version exGitEnv { configRuns := 0, describeRuns := 0 }).2.describeRuns = 0 + 1 ∧
    (version exGitEnv { configRuns := 0, describeRuns := 0 }).1 =
      (version exGitEnv { configRuns := 5, describeRuns := 9 }).1 :=
  version_recomputed_every_call exGitEnv { configRuns := 0, describeRuns := 0 }
    { configRuns := 5, describeRuns := 9 } ⟨"", rfl⟩

/-- C7 counterexample: the handler New installs for termination signals only
prints the cursor-restore escape; with a spawned process (pid 1) in flight, no
cancellation is propagated to it on SIGINT, so the claimed cancellation of
every in-flight spawned process is false. -/
theorem signal_cancellation_counterexample :
    signalHandler Signal.SIGINT = [HandlerEffect.printOut "\x1b[?25h"] ∧
    ¬ (HandlerEffect.cancelProc 1 ∈ signalHandler Signal.SIGINT) := by
  decide

/-- C7 amended: when the top-level process receives SIGHUP, SIGINT, SIGTERM or
SIGQUIT, the goroutine New spawned writes the ANSI cursor-restore escape
sequence to standard output and performs no other effect; in particular it
propagates no cancellation to any spawned process. -/
theorem signal_handler_prints_cursor_restore_only (sig : Signal)
    (hsig : sig ∈ notifiedSignals) :
    signalHandler sig = [HandlerEffect.printOut "\x1b[?25h"] ∧
    ∀ pid : Nat, HandlerEffect.cancelProc pid ∉ signalHandler sig := by
  constructor
  · simp [signalHandler, hsig]
  · intro pid h
    simp [signalHandler, hsig] at h

/-- Witness for the C7 amended theorem at SIGTERM. -/
theorem signal_handler_prints_cursor_restore_only_witness :
    signalHandler Signal.SIGTERM = [HandlerEffect.printOut "\x1b[?25h"] :=
  (signal_handler_prints_cursor_restore_only Signal.SIGTERM (by decide)).1

/-- C8: Image.Tag combines the base name with the process version: an empty
name yields the default (root) image tag for the resolved version, a non-empty
name yields the derived sub-image tag for that name and version, and Tag
returns an error exactly when the version lookup fails. -/
theorem image_tag_combines_name_and_version (i : Image) (env : GitEnv) (st : ProcState) :
    (∀ v, (version env st).1 = Except.ok v →
      ((i.Name = "" → (Image.Tag i env st).1 = Except.ok (DefaultImage v)) ∧
       (i.Name ≠ "" → (Image.Tag i env st).1 = Except.ok (SubImage i.Name v)))) ∧
    ((∃ e, (Image.Tag i env st).1 = Except.error e) ↔
      (∃ e, (version env st).1 = Except.error e)) := by
  rcases hver : version env st with ⟨r, st2⟩
  cases r with
  | ok v0 =>
    have htag : Image.Tag i env st =
        (Except.ok (if i.Name ≠ "" then SubImage i.Name v0 else DefaultImage v0), st2) := by
      simp [Image.Tag, hver]
    constructor
    · intro w hw
      simp only [Except.ok.injEq] at hw
      subst hw
      constructor
      · intro hname
        rw [htag]
        simp [hname]
      · intro hname
        rw [htag]
        simp [hname]
    · constructor
      · rintro ⟨e, he⟩
        rw [htag] at he
        simp at he
      · rintro ⟨e, he⟩
        simp at he
  | error e0 =>
    have htag : Image.Tag i env st = (Except.error e0, st2) := by
      simp [Image.Tag, hver]
    constructor
    · intro w hw
      simp at hw
    · constructor
      · intro _
        exact ⟨e0, rfl⟩
      · intro _
        exact ⟨e0, by rw [htag]⟩

/-- Witness for the C8 theorem: in the sample environment, the image named go
is tagged with the sub-image tag for go at the resolved version. -/
theorem image_tag_combines_name_and_version_witness :
    (Image.Tag { Name := "go" } exGitEnv { configRuns := 0, describeRuns := 0 }).1
      = Except.ok (SubImage "go" "v1.2.3") :=
  (((image_tag_combines_name_and_version { Name := "go" } exGitEnv
      { configRuns := 0, describeRuns := 0 }).1 "v1.2.3" (by decide)).2 (by decide))

/-- C9: every push step declares the registry auth token as a required
named-value Argument, and the push action resolves the token from State before
pushing: with the token absent from State the action performs no push effect
and returns an error, which is exactly the failed lookup whenever version
resolution itself succeeded. -/
theorem push_step_requires_auth_token (i : Image) (swVersion : String) (env : GitEnv)
    (state : StateMap) (st : ProcState)
    (habs : List.lookup ArgumentDockerAuthTokenKey state = none) :
    (ArgumentDockerAuthToken ∈ (Image.PushStep i swVersion).Arguments) ∧
    (∀ (swv : String) (images : List Image), ∀ s ∈ PushSteps swv images,
      ArgumentDockerAuthToken ∈ s.Arguments) ∧
    ((pushStepAction i env state st).2.1 = []) ∧
    (∃ e, (pushStepAction i env state st).1 = Except.error e) ∧
    (∀ v, (version env st).1 = Except.ok v →
      (pushStepAction i env state st).1 =
        Except.error ("no value found for key " ++ ArgumentDockerAuthTokenKey)) := by
  have hget : getString state ArgumentDockerAuthTokenKey =
      Except.error ("no value found for key " ++ ArgumentDockerAuthTokenKey) := by
    simp [getString, habs]
  have harg : ArgumentDockerAuthToken ∈ (Image.PushStep i swVersion).Arguments := by
    simp [Image.PushStep]
  have hargs : ∀ (swv : String) (images : List Image), ∀ s ∈ PushSteps swv images,
      ArgumentDockerAuthToken ∈ s.Arguments := by
    intro swv images s hs
    simp only [PushSteps, List.mem_map] at hs
    obtain ⟨img, _, himg⟩ := hs
    rw [← himg]
    simp [Step.WithName, Image.PushStep]
  rcases hver : version env st with ⟨r, st2⟩
  cases r with
  | error e0 =>
    have htag : Image.Tag i env st = (Except.error e0, st2) := by
      simp [Image.Tag, hver]
    refine ⟨harg, hargs, ?_, ?_, ?_⟩
    · simp [pushStepAction, htag]
    · exact ⟨e0, by simp [pushStepAction, htag]⟩
    · intro v hv
      simp at hv
  | ok v0 =>
    have htag : Image.Tag i env st =
        (Except.ok (if i.Name ≠ "" then SubImage i.Name v0 else DefaultImage v0), st2) := by
      simp [Image.Tag, hver]
    refine ⟨harg, hargs, ?_, ?_, ?_⟩
    · simp [pushStepAction, htag, hget]
    · exact ⟨"no value found for key " ++ ArgumentDockerAuthTokenKey,
        by simp [pushStepAction, htag, hget]⟩
    · intro v hv
      simp [pushStepAction, htag, hget]

/-- Witness for the C9 theorem: with an empty State, the push action for the
go image returns the failed token lookup and pushes nothing. -/
theorem push_step_requires_auth_token_witness :
    (pushStepAction { Name := "go" } exGitEnv [] { configRuns := 0, describeRuns := 0 }).1 =
      Except.error ("no value found for key " ++ ArgumentDockerAuthTokenKey) :=
  ((push_step_requires_auth_token { Name := "go" } "v1" exGitEnv []
      { configRuns := 0, describeRuns := 0 } rfl).2.2.2.2 "v1.2.3" (by decide))

end Scribe
